import Mathlib

/-!
A shallow embedding of the command-interception and query-execution subsystem
of sensu-sh (src/main.go).  The dispatch hook Prog.exec, the query filter
entry points Prog.filterJSON and Prog.filterEvent, the per-run step
jsonFilter.run, and the result encoders (plainEncoder, the JSON encoder and
the YAML encoder) are translated from the source.  External collaborators --
the gojq query engine, the YAML stream decoder and the per-value yaml.Encoder
output -- are modelled as explicit parameters (ExternalOps), following the
collaborator boundary drawn in the specification.  The bytes written to
standard output, the messages logged to standard error, and the error value
returned to the interpreter by one command invocation are collected in a
FilterOutcome value; its parses field counts the calls to the query-engine
parse function (gojq.Parse), as instrumentation for the compile-once claims.
-/

/-- Modelled from the spec: a Go float64 value as seen by the encoders.  The
plain encoder renders it with the standard-library call
strconv.FormatFloat(val, 'f' , -1, 64) -- code that is not part of this
repository -- which the spec describes as the shortest decimal representation
that round-trips, with no forced exponent and no trailing zeros.  The value
is modelled abstractly by that rendered representation. -/
structure GoFloat where
  shortest : String

/-- A decoded document value (a Go interface value as produced by the YAML
decoder or by the gojq engine): nil, bool, integer, float64, string, a
slice, or a string-keyed map.  A Go map is modelled by its entry list, in
the sorted key order that json.Marshal would emit. -/
inductive GoValue
  | vnull
  | vbool (b : Bool)
  | vint (n : Int)
  | vfloat (f : GoFloat)
  | vstr (s : String)
  | vlist (elems : List GoValue)
  | vmap (entries : List (String × GoValue))

/-- Lower-case hexadecimal digit, as emitted by encoding/json escapes. -/
def hexDigit (n : Nat) : Char :=
  if n < 10 then Char.ofNat (48 + n) else Char.ofNat (87 + n)

/-- One character of a JSON string literal, as escaped by encoding/json.
The escapeHTML switch selects the additional escaping of angle brackets and
ampersands that json.Marshal applies and that SetEscapeHTML(false) turns
off. -/
def jsonEscapeChar (escapeHTML : Bool) (c : Char) : String :=
  if c == '"' then "\\\""
  else if c == '\\' then "\\\\"
  else if c == '\n' then "\\n"
  else if c == '\r' then "\\r"
  else if c == '\t' then "\\t"
  else if c.toNat < 32 then
    String.mk ['\\', 'u', '0', '0', hexDigit (c.toNat / 16), hexDigit (c.toNat % 16)]
  else if escapeHTML && (c == '<' || c == '>' || c == '&') then
    String.mk ['\\', 'u', '0', '0', hexDigit (c.toNat / 16), hexDigit (c.toNat % 16)]
  else if c.toNat == 8232 || c.toNat == 8233 then
    String.mk ['\\', 'u', '2', '0', '2', hexDigit (c.toNat % 16)]
  else String.mk [c]

/-- String quoting of encoding/json. -/
def jsonQuote (escapeHTML : Bool) (s : String) : String :=
  "\"" ++ String.join (s.data.map (jsonEscapeChar escapeHTML)) ++ "\""

/-- Indentation produced at nesting depth d by SetIndent with a two-space
indent. -/
def jsonIndent (d : Nat) : String :=
  String.join (List.replicate d "  ")

mutual

/-- encoding/json rendering of a value: compact when pretty is false (the
json.Marshal form used by the plain encoder), indented with two spaces when
pretty is true (the SetIndent form selected by jsonFilter.encoder). -/
def jsonVal (escapeHTML pretty : Bool) (d : Nat) : GoValue → String
  | GoValue.vnull => "null"
  | GoValue.vbool b => cond b "true" "false"
  | GoValue.vint n => toString n
  | GoValue.vfloat f => f.shortest
  | GoValue.vstr s => jsonQuote escapeHTML s
  | GoValue.vlist [] => "[]"
  | GoValue.vlist (v :: vs) =>
    if pretty then
      "[\n" ++ jsonElems escapeHTML pretty (d + 1) v vs ++ "\n" ++ jsonIndent d ++ "]"
    else
      "[" ++ jsonElems escapeHTML pretty d v vs ++ "]"
  | GoValue.vmap [] => "\x7b\x7d"
  | GoValue.vmap ((k, v) :: kvs) =>
    if pretty then
      "\x7b\n" ++ jsonFields escapeHTML pretty (d + 1) k v kvs ++ "\n" ++ jsonIndent d ++ "\x7d"
    else
      "\x7b" ++ jsonFields escapeHTML pretty d k v kvs ++ "\x7d"
termination_by v => sizeOf v

/-- Comma-separated rendering of the elements of a JSON array. -/
def jsonElems (escapeHTML pretty : Bool) (d : Nat) (v : GoValue) : List GoValue → String
  | [] => (if pretty then jsonIndent d else "") ++ jsonVal escapeHTML pretty d v
  | w :: ws =>
    ((if pretty then jsonIndent d else "") ++ jsonVal escapeHTML pretty d v)
      ++ (if pretty then ",\n" else ",") ++ jsonElems escapeHTML pretty d w ws
termination_by ws => sizeOf v + sizeOf ws

/-- Comma-separated rendering of the members of a JSON object. -/
def jsonFields (escapeHTML pretty : Bool) (d : Nat) (k : String) (v : GoValue) :
    List (String × GoValue) → String
  | [] =>
    (if pretty then jsonIndent d else "") ++ jsonQuote escapeHTML k
      ++ (if pretty then ": " else ":") ++ jsonVal escapeHTML pretty d v
  | (k2, v2) :: kvs =>
    ((if pretty then jsonIndent d else "") ++ jsonQuote escapeHTML k
       ++ (if pretty then ": " else ":") ++ jsonVal escapeHTML pretty d v)
      ++ (if pretty then ",\n" else ",") ++ jsonFields escapeHTML pretty d k2 v2 kvs
termination_by kvs => sizeOf v + sizeOf kvs

end

/-- fmt.Sprint as reached from the plain encoder's default branch: the
values that are not maps, slices, strings or floats, i.e. nil, bools and
integers.  The last three equations are unreachable from plainString, which
handles those shapes in earlier branches. -/
def goSprint : GoValue → String
  | GoValue.vnull => "<nil>"
  | GoValue.vbool b => cond b "true" "false"
  | GoValue.vint n => toString n
  | GoValue.vstr s => s
  | GoValue.vfloat f => f.shortest
  | GoValue.vlist _ => ""
  | GoValue.vmap _ => ""

/-- The type switch in plainEncoder.Encode (main.go:338-351): maps and
slices are rendered by json.Marshal (compact, HTML-escaped JSON), strings
are emitted verbatim, float64 values by strconv.FormatFloat(val, 'f' , -1,
64), and everything else by fmt.Sprint. -/
def plainString : GoValue → String
  | GoValue.vmap m => jsonVal true false 0 (GoValue.vmap m)
  | GoValue.vlist l => jsonVal true false 0 (GoValue.vlist l)
  | GoValue.vstr s => s
  | GoValue.vfloat f => f.shortest
  | v => goSprint v

/-- plainEncoder (main.go:319-326): its only state is whether a value has
been written yet. -/
structure plainEncoder where
  written : Bool

/-- plainEncoder.Encode (main.go:328-358): emit a newline first when a value
was already written, mark the encoder as written, then render the value. -/
def plainEncoder.Encode (p : plainEncoder) (val : GoValue) : plainEncoder × String :=
  (⟨true⟩, (if p.written then "\n" else "") ++ plainString val)

/-- The Encoder interface (main.go:312-314) with the three implementations
returned by jsonFilter.encoder: a json.Encoder with SetEscapeHTML(false) and
an optional two-space indent, a yaml.Encoder (external), or a plainEncoder. -/
inductive Encoder
  | jsonEnc (escapeHTML : Bool) (pretty : Bool)
  | yamlEnc
  | plainEnc (p : plainEncoder)

/-- One Encode call.  json.Encoder.Encode writes the JSON text followed by a
newline; the yaml.Encoder is external and its per-value output is supplied
as the yamlEncode parameter; the plain encoder threads its written flag. -/
def Encoder.Encode (yamlEncode : GoValue → String) : Encoder → GoValue → Encoder × String
  | Encoder.jsonEnc esc pr, v => (Encoder.jsonEnc esc pr, jsonVal esc pr 0 v ++ "\n")
  | Encoder.yamlEnc, v => (Encoder.yamlEnc, yamlEncode v)
  | Encoder.plainEnc p, v =>
    match p.Encode v with
    | (p2, s) => (Encoder.plainEnc p2, s)

/-- jsonFilter (main.go:360-367): the per-invocation output flags bound by
jsonFilter.bind. -/
structure jsonFilter where
  pretty : Bool
  json : Bool
  yaml : Bool

/-- jsonFilter.encoder (main.go:383-395): the json flag takes priority, then
the yaml flag, otherwise a fresh plain encoder. -/
def jsonFilter.encoder (j : jsonFilter) : Encoder :=
  if j.json then Encoder.jsonEnc false j.pretty
  else if j.yaml then Encoder.yamlEnc
  else Encoder.plainEnc ⟨false⟩

/-- One element of a query result sequence: a value, or an error value (the
gojq iterator yields Go error values inline). -/
inductive RunElem
  | ok (v : GoValue)
  | err (msg : String)

/-- External collaborators of the filter, at the boundary drawn by the
specification: the gojq engine (parse and run), the YAML stream decoder over
an input string (the returned list ends where the decoder reports EOF, and
an error element is where the decoder fails), and the per-value
yaml.Encoder output. -/
structure ExternalOps (Q : Type) where
  parse : String → Option Q
  runQ : Q → GoValue → List RunElem
  decode : String → List (Except String GoValue)
  yamlEncode : GoValue → String

/-- Observable outcome of one command invocation: the bytes written to
standard output, the messages logged to standard error, the error value
returned to the interpreter (none is success, i.e. exit status 0; some n is
interp.NewExitStatus n), and the number of gojq.Parse calls performed. -/
structure FilterOutcome where
  out : String
  logs : List String
  err : Option Nat
  parses : Nat

/-- The iteration loop of jsonFilter.run (main.go:408-423): encode the
values in order; at the first error element, log it and return exit
status 1 without touching the rest of the sequence. -/
def runElems (yamlEncode : GoValue → String) : Encoder → List RunElem → String × List String × Option Nat
  | _, [] => ("", [], none)
  | _, RunElem.err m :: _ => ("", ["query error: " ++ m], some 1)
  | e, RunElem.ok v :: rest =>
    match e.Encode yamlEncode v with
    | (e2, s) =>
      match runElems yamlEncode e2 rest with
      | (out, logs, st) => (s ++ out, logs, st)

/-- Encoding of a list of values through successive Encode calls: the part
of the iteration that precedes any error element. -/
def encList (yamlEncode : GoValue → String) : Encoder → List GoValue → Encoder × String
  | e, [] => (e, "")
  | e, v :: vs =>
    match e.Encode yamlEncode v with
    | (e2, s) =>
      match encList yamlEncode e2 vs with
      | (e3, s2) => (e3, s ++ s2)

/-- jsonFilter.run (main.go:397-426): parse the query string (logging and
returning exit status 1 on failure, before anything is run), construct the
encoder, then iterate the result sequence of the query on the input. -/
def jsonFilter.run {Q : Type} (ops : ExternalOps Q) (j : jsonFilter) (queryStr : String)
    (input : GoValue) : FilterOutcome :=
  match ops.parse queryStr with
  | none => ⟨"", ["unable to parse query"], some 1, 1⟩
  | some q =>
    match runElems ops.yamlEncode (jsonFilter.encoder j) (ops.runQ q input) with
    | (out, logs, st) => ⟨out, logs, st, 1⟩

/-- The document loop of Prog.filterJSON (main.go:218-230): decode documents
until EOF (a nil return); a decode error logs and returns exit status 1;
each document is handed to jsonFilter.run, and a non-nil run result stops
the loop and is returned as is. -/
def docLoop {Q : Type} (ops : ExternalOps Q) (j : jsonFilter) (queryStr : String) :
    List (Except String GoValue) → FilterOutcome
  | [] => ⟨"", [], none, 0⟩
  | Except.error msg :: _ => ⟨"", ["error decoding input: " ++ msg], some 1, 0⟩
  | Except.ok d :: rest =>
    match jsonFilter.run ops j queryStr d with
    | ⟨out, logs, some n, k⟩ => ⟨out, logs, some n, k⟩
    | ⟨out, logs, none, k⟩ =>
      match docLoop ops j queryStr rest with
      | ⟨out2, logs2, st2, k2⟩ => ⟨out ++ out2, logs ++ logs2, st2, k + k2⟩

/-- A variable of the interpreter's live environment (expand.Variable):
absent, a scalar string, an indexed list, an associative map, or a name
reference. -/
inductive VarValue
  | unset
  | scalar (s : String)
  | indexed (l : List String)
  | associative (m : List (String × String))
  | nameRef (t : String)

/-- strings.Join(l, newline), as applied to an indexed variable
(main.go:203). -/
def strJoinNL : List String → String
  | [] => ""
  | [s] => s
  | s :: ss => s ++ "\n" ++ strJoinNL ss

/-- The kind test of Prog.exec (main.go:141): only scalar-string and indexed
variables are accepted for the at-sign shorthand. -/
def queryableKind : VarValue → Bool
  | VarValue.scalar _ => true
  | VarValue.indexed _ => true
  | _ => false

/-- Input text resolved from a variable source (main.go:197-206): a scalar
yields its string, an indexed variable joins its elements with newlines,
and any other kind yields the empty string. -/
def sourceString (env : String → VarValue) (source : String) : String :=
  match env source with
  | VarValue.scalar s => s
  | VarValue.indexed l => strJoinNL l
  | _ => ""

/-- The input reader of Prog.filterJSON (main.go:195-207): the command's
standard input for the dash source, otherwise the variable's text. -/
def sourceInput (env : String → VarValue) (stdin source : String) : String :=
  if source = "-" then stdin else sourceString env source

/-- Positional-argument defaulting of Prog.filterJSON (main.go:172-179): an
empty list becomes the identity query, and the forced variable name, when
present, is appended afterwards. -/
def effectiveArgs (forceVar : Option String) (pos : List String) : List String :=
  let args := if pos.isEmpty then ["."] else pos
  match forceVar with
  | some name => args ++ [name]
  | none => args

/-- The argument switch of Prog.filterJSON (main.go:181-193): up to two
positionals are the query string and the input source, defaulting to the
identity query and standard input; more than two is a usage error (none). -/
def parsePositional : List String → Option (String × String)
  | [] => some (".", "-")
  | [q] => some (q, "-")
  | [q, s] => some (q, s)
  | _ => none

/-- The tail of Prog.filterJSON after source resolution (main.go:209-230):
with raw input the whole text is handed to a single run as a string;
otherwise the text is decoded as a YAML document stream and each document is
run in turn. -/
def runWithInput {Q : Type} (ops : ExternalOps Q) (j : jsonFilter) (rawInput : Bool)
    (queryStr input : String) : FilterOutcome :=
  if rawInput then jsonFilter.run ops j queryStr (GoValue.vstr input)
  else docLoop ops j queryStr (ops.decode input)

/-- Prog.filterJSON (main.go:150-231) after flag parsing: pos is the list of
positional arguments left by the flag set, stdin the text available on the
command's standard input. -/
def Prog.filterJSON {Q : Type} (ops : ExternalOps Q) (env : String → VarValue)
    (stdin : String) (forceVar : Option String) (rawInput : Bool) (j : jsonFilter)
    (pos : List String) : FilterOutcome :=
  match parsePositional (effectiveArgs forceVar pos) with
  | none => ⟨"", ["too many argument to query: expected 0..2"], some 1, 0⟩
  | some (queryStr, source) =>
    runWithInput ops j rawInput queryStr (sourceInput env stdin source)

/-- Prog.filterEvent (main.go:233-258) after flag parsing: at most one
positional argument (the query string, defaulting to the identity query),
run against the event document. -/
def Prog.filterEvent {Q : Type} (ops : ExternalOps Q) (event : GoValue) (j : jsonFilter)
    (pos : List String) : FilterOutcome :=
  match pos with
  | [] => jsonFilter.run ops j "." event
  | [q] => jsonFilter.run ops j q event
  | _ => ⟨"", ["too many arguments to event: expected 0..1"], some 1, 0⟩

/-- strings.HasPrefix(s, at-sign) as evaluated by Prog.exec (main.go:134):
true when the first byte of s is the at-sign. -/
def startsWithAt (s : String) : Bool :=
  match s.data with
  | [] => false
  | c :: _ => c == '@'

/-- strings.TrimPrefix(s, at-sign) (main.go:138). -/
def trimAtSign (s : String) : String :=
  if startsWithAt s then String.mk (s.data.drop 1) else s

/-- Classification of one intercepted command by Prog.exec: run the query
filter (with an optional forced variable and the remaining arguments handed
to its flag set), run the event filter, or fall through to the default
external-command execution with the original argument vector. -/
inductive ExecPath
  | filterQuery (forceVar : Option String) (flagArgs : List String)
  | filterEvt (flagArgs : List String)
  | defaultExec (args : List String)

/-- Prog.exec (main.go:125-148): the names query and event are handled
internally; a command whose name begins with the at-sign, is not the
at-sign alone, and whose stripped name is a scalar-string or indexed
variable becomes a query with that variable forced; anything else is
executed as an external command. -/
def Prog.exec (env : String → VarValue) (cmd : String) (rest : List String) : ExecPath :=
  if cmd = "query" then ExecPath.filterQuery none rest
  else if cmd = "event" then ExecPath.filterEvt rest
  else if cmd = "@" ∨ startsWithAt cmd = false then ExecPath.defaultExec (cmd :: rest)
  else if queryableKind (env (trimAtSign cmd)) then
    ExecPath.filterQuery (some (trimAtSign cmd)) rest
  else ExecPath.defaultExec (cmd :: rest)

/-- Plain-mode rendering of the value list of one run: a newline before
every value after the first; b records whether something was already
written when the list starts. -/
def sepConcat (b : Bool) : List String → String
  | [] => ""
  | s :: ss => ((if b then "\n" else "") ++ s) ++ sepConcat true ss

/-- Concatenation of the per-document outputs of one invocation. -/
def strConcat : List String → String
  | [] => ""
  | s :: ss => s ++ strConcat ss

/-- Example environment used by the concrete instances below: one scalar
variable, one indexed variable, one associative variable. -/
def envEx : String → VarValue := fun n =>
  if n = "FOO" then VarValue.scalar "x"
  else if n = "ARR" then VarValue.indexed ["p", "q"]
  else if n = "MAP" then VarValue.associative []
  else VarValue.unset

/-- Example environment with no variables at all. -/
def env0 : String → VarValue := fun _ => VarValue.unset

/-- Filter configuration with no flags set: plain output mode. -/
def jfPlain : jsonFilter := ⟨false, false, false⟩

/-- Engine whose parse always fails and whose decoder yields no documents
(an empty input stream). -/
def opsParseFail : ExternalOps Unit :=
  ⟨fun _ => none, fun _ _ => [], fun _ => [], fun _ => ""⟩

/-- Identity-like engine: every query parses; running yields the input value
itself; the decoder yields the whole input as one string document. -/
def opsId : ExternalOps Unit :=
  ⟨fun _ => some (), fun _ v => [RunElem.ok v], fun s => [Except.ok (GoValue.vstr s)],
   fun _ => ""⟩

/-- Engine whose decoder always yields the two string documents a and b and
whose queries yield each input value once. -/
def opsTwoDocs : ExternalOps Unit :=
  ⟨fun _ => some (), fun _ v => [RunElem.ok v],
   fun _ => [Except.ok (GoValue.vstr "a"), Except.ok (GoValue.vstr "b")], fun _ => ""⟩

/-- Engine whose queries yield each input value twice. -/
def opsDup : ExternalOps Unit :=
  ⟨fun _ => some (), fun _ v => [RunElem.ok v, RunElem.ok v], fun _ => [], fun _ => ""⟩

/-- Engine whose result sequence is the value 1, then an error, then the
value 2, for every input. -/
def opsErrSeq : ExternalOps Unit :=
  ⟨fun _ => some (),
   fun _ _ => [RunElem.ok (GoValue.vint 1), RunElem.err "boom", RunElem.ok (GoValue.vint 2)],
   fun _ => [], fun _ => ""⟩

theorem startsWithAt_head (cmd : String) (h : startsWithAt cmd = true) :
    ∃ t, cmd.data = '@' :: t := by
  obtain ⟨l⟩ := cmd
  cases l with
  | nil => simp [startsWithAt] at h
  | cons c t =>
    have hc : c = '@' := by simpa [startsWithAt] using h
    exact ⟨t, by rw [hc]⟩

theorem startsWithAt_ne_query (cmd : String) (h : startsWithAt cmd = true) :
    cmd ≠ "query" := by
  intro heq
  obtain ⟨t, hdata⟩ := startsWithAt_head cmd h
  have hd := congrArg String.data heq
  rw [hdata] at hd
  have h3 : (some '@' : Option Char) = some 'q' := congrArg List.head? hd
  exact absurd h3 (by decide)

theorem startsWithAt_ne_event (cmd : String) (h : startsWithAt cmd = true) :
    cmd ≠ "event" := by
  intro heq
  obtain ⟨t, hdata⟩ := startsWithAt_head cmd h
  have hd := congrArg String.data heq
  rw [hdata] at hd
  have h3 : (some '@' : Option Char) = some 'e' := congrArg List.head? hd
  exact absurd h3 (by decide)

theorem atAppend_data (name : String) : ("@" ++ name).data = '@' :: name.data := by
  obtain ⟨l⟩ := name
  rfl

theorem startsWithAt_atAppend (name : String) : startsWithAt ("@" ++ name) = true := by
  obtain ⟨l⟩ := name
  rfl

theorem atAppend_ne_at (name : String) (h : name ≠ "") : ("@" ++ name) ≠ "@" := by
  obtain ⟨l⟩ := name
  intro heq
  have hd := congrArg String.data heq
  rw [atAppend_data] at hd
  have hl : l = [] := congrArg List.tail hd
  exact h (by rw [hl])

theorem trimAtSign_atAppend (name : String) : trimAtSign ("@" ++ name) = name := by
  obtain ⟨l⟩ := name
  rfl

theorem runElems_oks_plain (yamlEncode : GoValue → String) (vs : List GoValue) :
    ∀ b : Bool, runElems yamlEncode (Encoder.plainEnc ⟨b⟩) (vs.map RunElem.ok) =
      (sepConcat b (vs.map plainString), [], none) := by
  induction vs with
  | nil => intro b; rfl
  | cons v vs ih =>
    intro b
    simp [runElems, Encoder.Encode, plainEncoder.Encode, ih true, sepConcat]

theorem runElems_oks_tail (yamlEncode : GoValue → String) (vs : List GoValue) :
    ∀ e : Encoder, (runElems yamlEncode e (vs.map RunElem.ok)).2 = ([], none) := by
  induction vs with
  | nil => intro e; rfl
  | cons v vs ih =>
    intro e
    rcases he : e.Encode yamlEncode v with ⟨e2, s⟩
    rcases hr : runElems yamlEncode e2 (vs.map RunElem.ok) with ⟨out, logs, st⟩
    have h2 := ih e2
    rw [hr] at h2
    simp [runElems, he, hr]
    exact ⟨congrArg Prod.fst h2, congrArg Prod.snd h2⟩

theorem runElems_err (yamlEncode : GoValue → String) (m : String)
    (rest : List RunElem) (vs : List GoValue) :
    ∀ e : Encoder, runElems yamlEncode e (vs.map RunElem.ok ++ RunElem.err m :: rest) =
      ((encList yamlEncode e vs).2, ["query error: " ++ m], some 1) := by
  induction vs with
  | nil => intro e; rfl
  | cons v vs ih =>
    intro e
    rcases he : e.Encode yamlEncode v with ⟨e2, s⟩
    rcases hl : encList yamlEncode e2 vs with ⟨e3, s2⟩
    have h2 := ih e2
    rw [hl] at h2
    simp [runElems, encList, he, hl, h2]

theorem run_oks {Q : Type} (ops : ExternalOps Q) (j : jsonFilter) (qs : String) (qq : Q)
    (f : GoValue → List GoValue) (d : GoValue)
    (hp : ops.parse qs = some qq) (hr : ∀ v, ops.runQ qq v = (f v).map RunElem.ok) :
    jsonFilter.run ops j qs d =
      ⟨(runElems ops.yamlEncode (jsonFilter.encoder j) ((f d).map RunElem.ok)).1,
       [], none, 1⟩ := by
  rcases hre : runElems ops.yamlEncode (jsonFilter.encoder j) ((f d).map RunElem.ok)
    with ⟨out, logs, st⟩
  have h2 := runElems_oks_tail ops.yamlEncode (f d) (jsonFilter.encoder j)
  rw [hre] at h2
  have hlog : logs = [] := congrArg Prod.fst h2
  have hst : st = none := congrArg Prod.snd h2
  simp [jsonFilter.run, hp, hr, hre, hlog, hst]

theorem docLoop_oks {Q : Type} (ops : ExternalOps Q) (j : jsonFilter) (qs : String) (qq : Q)
    (f : GoValue → List GoValue)
    (hp : ops.parse qs = some qq) (hr : ∀ v, ops.runQ qq v = (f v).map RunElem.ok) :
    ∀ docs : List GoValue, docLoop ops j qs (docs.map Except.ok) =
      ⟨strConcat (docs.map fun d =>
          (runElems ops.yamlEncode (jsonFilter.encoder j) ((f d).map RunElem.ok)).1),
       [], none, docs.length⟩ := by
  intro docs
  induction docs with
  | nil => rfl
  | cons d ds ih =>
    simp [docLoop, run_oks ops j qs qq f d hp hr, ih, strConcat, Nat.add_comm]

/-- C1 (amended): the query filter compiles the query string once per
jsonFilter.run call.  For event that is exactly once per command
invocation, but for a non-raw query invocation it is once per decoded
document.  On parse failure the run logs the error and returns exit
status 1 without running the query against that document, so a malformed
query yields status 1 whenever at least one document is decoded -- yet an
input stream with no documents returns success (status 0) without any
compilation at all. -/
theorem claim_C1 :
    (∀ (Q : Type) (ops : ExternalOps Q) (j : jsonFilter) (q : String) (v : GoValue),
      (jsonFilter.run ops j q v).parses = 1)
    ∧ (∀ (Q : Type) (ops : ExternalOps Q) (j : jsonFilter) (q : String) (v : GoValue),
      ops.parse q = none →
      jsonFilter.run ops j q v = ⟨"", ["unable to parse query"], some 1, 1⟩)
    ∧ (∀ (Q : Type) (ops : ExternalOps Q) (j : jsonFilter) (q : String) (d : GoValue)
        (rest : List (Except String GoValue)),
      ops.parse q = none →
      docLoop ops j q (Except.ok d :: rest) = ⟨"", ["unable to parse query"], some 1, 1⟩)
    ∧ (∀ (Q : Type) (ops : ExternalOps Q) (j : jsonFilter) (q : String),
      docLoop ops j q [] = ⟨"", [], none, 0⟩)
    ∧ (∀ (Q : Type) (ops : ExternalOps Q) (j : jsonFilter) (q : String) (qq : Q)
        (f : GoValue → List GoValue) (docs : List GoValue),
      ops.parse q = some qq → (∀ v, ops.runQ qq v = (f v).map RunElem.ok) →
      (docLoop ops j q (docs.map Except.ok)).parses = docs.length)
    ∧ (∀ (Q : Type) (ops : ExternalOps Q) (ev : GoValue) (j : jsonFilter) (q : String),
      (Prog.filterEvent ops ev j [q]).parses = 1) := by
  refine ⟨?_, ?_, ?_, ?_, ?_, ?_⟩
  · intro Q ops j q v
    cases hp : ops.parse q with
    | none => simp [jsonFilter.run, hp]
    | some qq =>
      rcases hre : runElems ops.yamlEncode (jsonFilter.encoder j) (ops.runQ qq v)
        with ⟨o, l, s⟩
      simp [jsonFilter.run, hp, hre]
  · intro Q ops j q v hp
    simp [jsonFilter.run, hp]
  · intro Q ops j q d rest hp
    simp [docLoop, jsonFilter.run, hp]
  · intro Q ops j q
    rfl
  · intro Q ops j q qq f docs hp hr
    rw [docLoop_oks ops j q qq f hp hr docs]
  · intro Q ops ev j q
    show (jsonFilter.run ops j q ev).parses = 1
    cases hp : ops.parse q with
    | none => simp [jsonFilter.run, hp]
    | some qq =>
      rcases hre : runElems ops.yamlEncode (jsonFilter.encoder j) (ops.runQ qq ev)
        with ⟨o, l, s⟩
      simp [jsonFilter.run, hp, hre]

/-- C1 is false as stated: with a malformed query string (every parse
fails) and an input stream containing no documents, the query invocation
returns success (err none, i.e. exit status 0) and the query is compiled
zero times -- not exactly once, and not status 1. -/
theorem claim_C1_counterexample :
    opsParseFail.parse "(" = none
    ∧ Prog.filterJSON opsParseFail env0 "" none false jfPlain ["("] =
        ⟨"", [], none, 0⟩ :=
  ⟨rfl, rfl⟩

/-- Concrete instance of the amended C1: a malformed query with a decoded
document exits 1 after one compilation, and two decoded documents cause
two compilations in one invocation. -/
theorem claim_C1_witness :
    jsonFilter.run opsParseFail jfPlain "(" GoValue.vnull =
      ⟨"", ["unable to parse query"], some 1, 1⟩
    ∧ (docLoop opsTwoDocs jfPlain "."
        [Except.ok (GoValue.vstr "a"), Except.ok (GoValue.vstr "b")]).parses = 2 :=
  ⟨claim_C1.2.1 Unit opsParseFail jfPlain "(" GoValue.vnull rfl,
   claim_C1.2.2.2.2.1 Unit opsTwoDocs jfPlain "." () (fun v => [v])
     [GoValue.vstr "a", GoValue.vstr "b"] rfl (fun _ => rfl)⟩

/-- C2 (amended): the plain encoder's separator state resets at encoder
construction, which happens once per jsonFilter.run call, i.e. once per
input document rather than once per command invocation.  Consequently,
within the outputs of one document every output after the first is preceded
by exactly one newline (none before the first, none after the last), while
the outputs of consecutive documents of the same invocation are
concatenated with no separator between them. -/
theorem claim_C2 (Q : Type) (ops : ExternalOps Q) (j : jsonFilter) (q : String) (qq : Q)
    (f : GoValue → List GoValue) (docs : List GoValue)
    (hjson : j.json = false) (hyaml : j.yaml = false)
    (hp : ops.parse q = some qq) (hr : ∀ v, ops.runQ qq v = (f v).map RunElem.ok) :
    docLoop ops j q (docs.map Except.ok) =
      ⟨strConcat (docs.map fun d => sepConcat false ((f d).map plainString)),
       [], none, docs.length⟩ := by
  have henc : jsonFilter.encoder j = Encoder.plainEnc ⟨false⟩ := by
    simp [jsonFilter.encoder, hjson, hyaml]
  have hfun : ∀ d, (runElems ops.yamlEncode (jsonFilter.encoder j) ((f d).map RunElem.ok)).1
      = sepConcat false ((f d).map plainString) := by
    intro d
    rw [henc, runElems_oks_plain]
  rw [docLoop_oks ops j q qq f hp hr docs]
  simp only [hfun]

/-- C2 is false as stated: two input documents each yielding one plain-mode
output produce the concatenation with no separating newline between the
documents (and the query is compiled twice, once per document), because the
encoder -- and with it the written flag -- is constructed afresh inside
each jsonFilter.run call. -/
theorem claim_C2_counterexample :
    Prog.filterJSON opsTwoDocs env0 "" none false jfPlain [] = ⟨"ab", [], none, 2⟩
    ∧ "ab" ≠ "a\nb" :=
  ⟨rfl, by decide⟩

/-- Concrete instance of the amended C2: two documents, each yielding two
values; within a document the two values are separated by one newline, and
the two documents' outputs are concatenated with no separator. -/
theorem claim_C2_witness :
    docLoop opsDup jfPlain "." [Except.ok (GoValue.vstr "a"), Except.ok (GoValue.vstr "b")] =
      ⟨"a\nab\nb", [], none, 2⟩ :=
  claim_C2 Unit opsDup jfPlain "." () (fun v => [v, v])
    [GoValue.vstr "a", GoValue.vstr "b"] rfl rfl rfl (fun _ => rfl)

/-- C3: for a command at-name with the name non-empty and bound to a
scalar-string or indexed variable, the dispatcher hands the query filter
exactly the arguments that followed the command name, with the variable
forced; the forced name is appended as the trailing input-source argument
after the (defaulted) positionals -- after any input source the caller
supplied -- so that, whenever the caller supplied any positional arguments
at all, the invocation equals a query invocation with the bare name
appended as the last argument. -/
theorem claim_C3 {Q : Type} (ops : ExternalOps Q) (env : String → VarValue)
    (stdin : String) (raw : Bool) (j : jsonFilter) (name : String) (rest : List String)
    (hname : name ≠ "") (hkind : queryableKind (env name) = true) :
    Prog.exec env ("@" ++ name) rest = ExecPath.filterQuery (some name) rest
    ∧ (∀ pos : List String, effectiveArgs (some name) pos =
        (if pos.isEmpty then ["."] else pos) ++ [name])
    ∧ (∀ pos : List String, pos ≠ [] →
        Prog.filterJSON ops env stdin (some name) raw j pos =
          Prog.filterJSON ops env stdin none raw j (pos ++ [name])) := by
  refine ⟨?_, ?_, ?_⟩
  · have hq := startsWithAt_ne_query ("@" ++ name) (startsWithAt_atAppend name)
    have he := startsWithAt_ne_event ("@" ++ name) (startsWithAt_atAppend name)
    have hat := atAppend_ne_at name hname
    have hcond : ¬(("@" ++ name) = "@" ∨ startsWithAt ("@" ++ name) = false) := by
      simp [hat, startsWithAt_atAppend]
    simp [Prog.exec, hq, he, hcond, trimAtSign_atAppend, hkind]
  · intro pos
    rfl
  · intro pos hpos
    have hne : pos.isEmpty = false := by
      cases pos with
      | nil => exact absurd rfl hpos
      | cons a t => rfl
    have h2 : (pos ++ [name]).isEmpty = false := by
      cases pos with
      | nil => rfl
      | cons a t => rfl
    simp [Prog.filterJSON, effectiveArgs, hne, h2]

/-- Concrete instance of C3: at-FOO with one caller argument is dispatched
with that argument forwarded and behaves as a query invocation with FOO
appended as the trailing input-source argument. -/
theorem claim_C3_witness :
    Prog.exec envEx "@FOO" [".x"] = ExecPath.filterQuery (some "FOO") [".x"]
    ∧ Prog.filterJSON opsId envEx "" (some "FOO") false jfPlain [".x"] =
        Prog.filterJSON opsId envEx "" none false jfPlain [".x", "FOO"] := by
  have h := claim_C3 opsId envEx "" false jfPlain "FOO" [".x"] (by decide) rfl
  exact ⟨h.1, h.2.2 [".x"] (by decide)⟩

/-- C4: when the result sequence of a query run is some values followed by
an error element, the run encodes exactly the values before the error (in
order), logs the error, and returns exit status 1; the elements after the
error and all subsequent input documents contribute nothing -- the outcome
is independent of them. -/
theorem claim_C4 (Q : Type) (ops : ExternalOps Q) (j : jsonFilter) (qs : String) (qq : Q)
    (d : GoValue) (vs : List GoValue) (m : String) (rest : List RunElem)
    (docs : List (Except String GoValue))
    (hp : ops.parse qs = some qq)
    (hr : ops.runQ qq d = vs.map RunElem.ok ++ RunElem.err m :: rest) :
    jsonFilter.run ops j qs d =
      ⟨(encList ops.yamlEncode (jsonFilter.encoder j) vs).2,
       ["query error: " ++ m], some 1, 1⟩
    ∧ docLoop ops j qs (Except.ok d :: docs) =
      ⟨(encList ops.yamlEncode (jsonFilter.encoder j) vs).2,
       ["query error: " ++ m], some 1, 1⟩ := by
  have hrun : jsonFilter.run ops j qs d =
      ⟨(encList ops.yamlEncode (jsonFilter.encoder j) vs).2,
       ["query error: " ++ m], some 1, 1⟩ := by
    rcases hel : encList ops.yamlEncode (jsonFilter.encoder j) vs with ⟨e3, s2⟩
    have h2 := runElems_err ops.yamlEncode m rest vs (jsonFilter.encoder j)
    rw [hel] at h2
    simp [jsonFilter.run, hp, hr, h2, hel]
  refine ⟨hrun, ?_⟩
  simp [docLoop, hrun]

/-- Concrete instance of C4: the result sequence 1, error, 2 encodes only
the value 1, logs the error, and exits 1; the trailing 2 and a further
pending document are never encoded. -/
theorem claim_C4_witness :
    docLoop opsErrSeq jfPlain "." [Except.ok GoValue.vnull, Except.ok GoValue.vnull] =
      ⟨"1", ["query error: boom"], some 1, 1⟩ :=
  (claim_C4 Unit opsErrSeq jfPlain "." () GoValue.vnull [GoValue.vint 1] "boom"
    [RunElem.ok (GoValue.vint 2)] [Except.ok GoValue.vnull] rfl rfl).2

/-- C5: after flag parsing, zero positional arguments run the identity
query against standard input; one positional is the query string with
standard input; two positionals are the query string and the input source
(the dash literal meaning standard input, anything else resolved as a
variable of the live environment); three or more positionals are a usage
error that returns exit status 1 with no compilation and no run. -/
theorem claim_C5 (Q : Type) (ops : ExternalOps Q) (env : String → VarValue)
    (stdin : String) (raw : Bool) (j : jsonFilter) :
    Prog.filterJSON ops env stdin none raw j [] = runWithInput ops j raw "." stdin
    ∧ (∀ q, Prog.filterJSON ops env stdin none raw j [q] = runWithInput ops j raw q stdin)
    ∧ (∀ q s, Prog.filterJSON ops env stdin none raw j [q, s] =
        runWithInput ops j raw q (sourceInput env stdin s))
    ∧ (∀ a b c rest2, Prog.filterJSON ops env stdin none raw j (a :: b :: c :: rest2) =
        ⟨"", ["too many argument to query: expected 0..2"], some 1, 0⟩) :=
  ⟨rfl, fun _ => rfl, fun _ _ => rfl, fun _ _ _ _ => rfl⟩

/-- C6: in plain mode (no json flag, no yaml flag) the encoder ignores the
pretty flag entirely; maps and slices are rendered as compact
(non-indented) JSON, strings verbatim with no quoting, floats by their
shortest round-trip representation (strconv.FormatFloat, modelled), and
the remaining scalars by the generic fmt.Sprint stringification. -/
theorem claim_C6 (pr : Bool) (m : List (String × GoValue)) (l : List GoValue)
    (s : String) (f : GoFloat) (b : Bool) (n : Int) :
    jsonFilter.encoder ⟨pr, false, false⟩ = Encoder.plainEnc ⟨false⟩
    ∧ plainString (GoValue.vmap m) = jsonVal true false 0 (GoValue.vmap m)
    ∧ plainString (GoValue.vlist l) = jsonVal true false 0 (GoValue.vlist l)
    ∧ plainString (GoValue.vstr s) = s
    ∧ plainString (GoValue.vfloat f) = f.shortest
    ∧ plainString (GoValue.vbool b) = goSprint (GoValue.vbool b)
    ∧ plainString GoValue.vnull = goSprint GoValue.vnull
    ∧ plainString (GoValue.vint n) = goSprint (GoValue.vint n) :=
  ⟨rfl, rfl, rfl, rfl, rfl, rfl, rfl, rfl⟩

/-- C7: a command whose name begins with the at-sign but is the at-sign
alone, or whose stripped variable name is not of scalar-string or indexed
kind (absent variables included), falls through to the default external
execution path. -/
theorem claim_C7 (env : String → VarValue) (cmd : String) (rest : List String)
    (h1 : startsWithAt cmd = true)
    (h2 : cmd = "@" ∨ queryableKind (env (trimAtSign cmd)) = false) :
    Prog.exec env cmd rest = ExecPath.defaultExec (cmd :: rest) := by
  have hq := startsWithAt_ne_query cmd h1
  have he := startsWithAt_ne_event cmd h1
  by_cases hat : cmd = "@"
  · subst hat
    rfl
  · rcases h2 with h2 | h2
    · exact absurd h2 hat
    · simp [Prog.exec, hq, he, hat, h1, h2]

/-- Concrete instance of C7: an at-command naming an absent variable, and
the bare at-sign, both run externally. -/
theorem claim_C7_witness :
    Prog.exec envEx "@NOPE" [] = ExecPath.defaultExec ["@NOPE"]
    ∧ Prog.exec envEx "@" ["x"] = ExecPath.defaultExec ["@", "x"] :=
  ⟨claim_C7 envEx "@NOPE" [] rfl (Or.inr rfl),
   claim_C7 envEx "@" ["x"] rfl (Or.inl rfl)⟩

/-- C8: a non-dash input source resolves through the live environment; an
absent variable or one of unsupported kind (associative, name reference)
resolves to the empty string rather than an error, and an indexed variable
resolves to its elements joined by newlines. -/
theorem claim_C8 (Q : Type) (ops : ExternalOps Q) (env : String → VarValue)
    (stdin : String) (raw : Bool) (j : jsonFilter) (q s : String) (hs : s ≠ "-") :
    Prog.filterJSON ops env stdin none raw j [q, s] =
      runWithInput ops j raw q (sourceString env s)
    ∧ (env s = VarValue.unset → sourceString env s = "")
    ∧ (∀ mm, env s = VarValue.associative mm → sourceString env s = "")
    ∧ (∀ t, env s = VarValue.nameRef t → sourceString env s = "")
    ∧ (∀ l, env s = VarValue.indexed l → sourceString env s = strJoinNL l) := by
  refine ⟨?_, ?_, ?_, ?_, ?_⟩
  · show runWithInput ops j raw q (sourceInput env stdin s) = _
    rw [sourceInput, if_neg hs]
  · intro h; simp [sourceString, h]
  · intro mm h; simp [sourceString, h]
  · intro t h; simp [sourceString, h]
  · intro l h; simp [sourceString, h]

/-- Concrete instance of C8: the indexed variable ARR with elements p and q
resolves to the newline-joined text, and the invocation runs on it. -/
theorem claim_C8_witness :
    Prog.filterJSON opsId envEx "" none false jfPlain [".", "ARR"] =
      runWithInput opsId jfPlain false "." "p\nq"
    ∧ sourceString envEx "ARR" = "p\nq" := by
  have h := claim_C8 Unit opsId envEx "" false jfPlain "." "ARR" (by decide)
  exact ⟨h.1, h.2.2.2.2 ["p", "q"] rfl⟩

/-- C9: with both the json and the yaml flag set, the encoder choice is the
deterministic JSON mode -- the json branch takes precedence -- and the
whole run behaves identically to a run with the yaml flag cleared, so two
runs with the same flags, query and input produce the same outcome. -/
theorem claim_C9 (j : jsonFilter) (hj : j.json = true) (hy : j.yaml = true) :
    jsonFilter.encoder j = Encoder.jsonEnc false j.pretty
    ∧ ∀ (Q : Type) (ops : ExternalOps Q) (qs : String) (v : GoValue),
        jsonFilter.run ops j qs v = jsonFilter.run ops ⟨j.pretty, true, false⟩ qs v := by
  obtain ⟨p, jj, jy⟩ := j
  cases hj
  cases hy
  exact ⟨rfl, fun Q ops qs v => rfl⟩

/-- Concrete instance of C9: with both flags set the encoder is the
unescaped JSON encoder and a run equals the run with yaml cleared. -/
theorem claim_C9_witness :
    jsonFilter.encoder ⟨false, true, true⟩ = Encoder.jsonEnc false false
    ∧ jsonFilter.run opsId ⟨false, true, true⟩ "." GoValue.vnull =
        jsonFilter.run opsId ⟨false, true, false⟩ "." GoValue.vnull :=
  ⟨(claim_C9 ⟨false, true, true⟩ rfl rfl).1,
   (claim_C9 ⟨false, true, true⟩ rfl rfl).2 Unit opsId "." GoValue.vnull⟩

/-- C10: an at-command with no further arguments, naming a scalar-string or
indexed variable, is dispatched with an empty argument list; the identity
query is inserted by the defaulting step before the forced name is
appended, so the effective positionals are the identity query followed by
the name, which lands in the input-source slot -- never in the query-string
slot. -/
theorem claim_C10 {Q : Type} (ops : ExternalOps Q) (env : String → VarValue)
    (stdin : String) (raw : Bool) (j : jsonFilter) (name : String)
    (hname : name ≠ "") (hkind : queryableKind (env name) = true) :
    Prog.exec env ("@" ++ name) [] = ExecPath.filterQuery (some name) []
    ∧ effectiveArgs (some name) [] = [".", name]
    ∧ parsePositional [".", name] = some (".", name)
    ∧ Prog.filterJSON ops env stdin (some name) raw j [] =
        runWithInput ops j raw "." (sourceInput env stdin name) := by
  refine ⟨?_, rfl, rfl, rfl⟩
  have hq := startsWithAt_ne_query ("@" ++ name) (startsWithAt_atAppend name)
  have he := startsWithAt_ne_event ("@" ++ name) (startsWithAt_atAppend name)
  have hat := atAppend_ne_at name hname
  have hcond : ¬(("@" ++ name) = "@" ∨ startsWithAt ("@" ++ name) = false) := by
    simp [hat, startsWithAt_atAppend]
  simp [Prog.exec, hq, he, hcond, trimAtSign_atAppend, hkind]

/-- Concrete instance of C10: at-ARR with no arguments runs the identity
query with the ARR variable as the input source. -/
theorem claim_C10_witness :
    Prog.exec envEx "@ARR" [] = ExecPath.filterQuery (some "ARR") []
    ∧ Prog.filterJSON opsId envEx "stdin" (some "ARR") false jfPlain [] =
        runWithInput opsId jfPlain false "." "p\nq" := by
  have h := claim_C10 opsId envEx "stdin" false jfPlain "ARR" (by decide) rfl
  exact ⟨h.1, h.2.2.2⟩
